import Mathlib

/-!
Verification of the ppc-distcc distributed compilation service.

The development shallowly embeds the Python sources
(`ppc_compile_coordinator.py`, `ppc_compile_worker.py`,
`ppc_compile_wrapper.py`, `config.py`) into Lean:

* bytes are `Fin 256`; byte strings are `List Byte`;
* Python strings are `List Char` (or Lean `String` where only equality
  matters); Python floats are modelled as `ℚ`; Python ints as `ℕ`/`ℤ`;
* the framed wire protocol (`send_message` / `recv_message`) is embedded as
  pure encode/decode functions on byte lists;
* the stateful parts (worker pool counters, socket timeouts, the worker job
  handler) are embedded as explicit state-passing functions or event traces.

UTF-8 encoding/decoding is modelled on its ASCII fragment: every defined
protocol tag and every JSON payload appearing in the verified claims is
ASCII, where UTF-8 is the identity on code points below 128.
-/

namespace PpcDistcc

/-- A single byte, as carried on the wire. -/
abbrev Byte := Fin 256

/-- Build a byte from a natural number, reducing mod 256 (the Python sources
only ever apply this to values already below 256). -/
def mkByte (n : ℕ) : Byte := ⟨n % 256, Nat.mod_lt n (by norm_num)⟩

/-- Numeric value of a byte. -/
def byteVal (b : Byte) : ℕ := b.val

/-- ASCII encoding of a character (UTF-8 restricted to its ASCII fragment;
all tags and JSON payloads in the claims are ASCII). Mirrors
`str.encode('utf-8')` on such strings. -/
def charByte (c : Char) : Byte := mkByte c.toNat

/-- Encode an ASCII string to bytes, as `s.encode('utf-8')` does for ASCII. -/
def strBytes (s : List Char) : List Byte := s.map charByte

/-- Decode one byte as an ASCII character; a byte ≥ 128 would start a
multi-byte UTF-8 sequence and is rejected here (the Python `decode('utf-8')`
would likewise not map it to a single ASCII character). -/
def decodeAsciiChar (b : Byte) : Option Char :=
  if b.val < 128 then some (Char.ofNat b.val) else none

/-- Decode a byte list as ASCII characters. -/
def decodeTagBytes (bs : List Byte) : Option (List Char) :=
  bs.mapM decodeAsciiChar

/-- Python `str.strip()` whitespace test (the six ASCII whitespace
characters). -/
def isPySpace (c : Char) : Bool :=
  c = ' ' || c = '\t' || c = '\n' || c = '\r' ||
    c = Char.ofNat 11 || c = Char.ofNat 12

/-- Python `str.strip()`: remove leading and trailing whitespace. -/
def pyStrip (s : List Char) : List Char :=
  ((s.dropWhile isPySpace).reverse.dropWhile isPySpace).reverse

/-- The 4-byte tag field of a frame header: the tag's UTF-8 bytes truncated
to 4 bytes and right-padded with ASCII spaces, mirroring
`msg_type.encode('utf-8')[:4].ljust(4)` in `send_message`
(`ppc_compile_coordinator.py` line 77; the worker and wrapper build the same
four bytes). -/
def padTag (t : List Char) : List Byte :=
  (strBytes t).take 4 ++ List.replicate (4 - ((strBytes t).take 4).length) (charByte ' ')

/-- Big-endian 4-byte encoding of a length, mirroring `struct.pack('!I', n)`
(which requires `n < 2^32`). -/
def be32 (n : ℕ) : List Byte :=
  [mkByte (n / 16777216), mkByte (n / 65536), mkByte (n / 256), mkByte n]

/-- `send_message`: the bytes placed on the socket for one frame — 4-byte
big-endian payload length, 4-byte space-padded tag, then the payload
(`ppc_compile_coordinator.py` lines 73-78). -/
def encodeFrame (t : List Char) (payload : List Byte) : List Byte :=
  be32 payload.length ++ padTag t ++ payload

/-- `recv_message` on a byte stream: read an 8-byte header (failing like
`recv_exactly` if the stream is shorter), take the first 4 bytes as a
big-endian length and the next 4 as the tag (UTF-8 decoded then stripped),
then read exactly `length` payload bytes
(`ppc_compile_coordinator.py` lines 92-98). Returns the decoded frame and
the unconsumed remainder of the stream. -/
def decodeFrame (s : List Byte) : Option (List Char × List Byte × List Byte) :=
  match s with
  | b0 :: b1 :: b2 :: b3 :: t0 :: t1 :: t2 :: t3 :: rest =>
    match decodeTagBytes [t0, t1, t2, t3] with
    | none => none
    | some tchars =>
      let len := byteVal b0 * 16777216 + byteVal b1 * 65536 + byteVal b2 * 256 + byteVal b3
      if len ≤ rest.length then some (pyStrip tchars, rest.take len, rest.drop len)
      else none
  | _ => none

/-- The defined protocol tags (spec §4.1). -/
def definedTags : List (List Char) :=
  ["PING".toList, "PONG".toList, "JOB".toList, "SRC".toList, "HDR".toList,
   "OK".toList, "ERR".toList, "OBJ".toList, "QUIT".toList]

/-- Concatenation of a sequence of frames onto one byte stream. -/
def encodeFrameSeq (fs : List (List Char × List Byte)) : List Byte :=
  (fs.map (fun f => encodeFrame f.1 f.2)).flatten

/-- Read `k` consecutive frames from a byte stream. -/
def decodeFrameSeq : ℕ → List Byte → Option (List (List Char × List Byte))
  | 0, _ => some []
  | k + 1, s =>
    match decodeFrame s with
    | none => none
    | some (t, p, rest) =>
      match decodeFrameSeq k rest with
      | none => none
      | some fs => some ((t, p) :: fs)

/-- Every defined tag survives padding, ASCII decoding and stripping. -/
theorem definedTags_pad_roundtrip :
    ∀ t ∈ definedTags,
      (padTag t).length = 4 ∧ (decodeTagBytes (padTag t)).map pyStrip = some t := by
  decide

/-- Helper: a list of length 4 is a literal 4-element list. -/
theorem exists_four {α : Type} (l : List α) (h : l.length = 4) :
    ∃ a b c d, l = [a, b, c, d] := by
  match l, h with
  | [a, b, c, d], _ => exact ⟨a, b, c, d, rfl⟩

/-- Decoding the big-endian length bytes recovers the length. -/
theorem be32_decode (n : ℕ) (h : n < 4294967296) :
    byteVal (mkByte (n / 16777216)) * 16777216 + byteVal (mkByte (n / 65536)) * 65536 +
      byteVal (mkByte (n / 256)) * 256 + byteVal (mkByte n) = n := by
  simp only [byteVal, mkByte]
  omega

/-- Single-frame decode of an encoded frame with any trailing stream, for a
tag whose padded form decodes back to itself. -/
theorem decodeFrame_encodeFrame (t : List Char) (payload rest : List Byte)
    (h4 : (padTag t).length = 4)
    (hdec : (decodeTagBytes (padTag t)).map pyStrip = some t)
    (hlen : payload.length < 4294967296) :
    decodeFrame (encodeFrame t payload ++ rest) = some (t, payload, rest) := by
  obtain ⟨c0, c1, c2, c3, hc⟩ := exists_four (padTag t) h4
  rw [hc] at hdec
  obtain ⟨tc, htc, hstrip⟩ := Option.map_eq_some'.mp hdec
  have hshape : encodeFrame t payload ++ rest =
      mkByte (payload.length / 16777216) :: mkByte (payload.length / 65536) ::
        mkByte (payload.length / 256) :: mkByte payload.length ::
        c0 :: c1 :: c2 :: c3 :: (payload ++ rest) := by
    simp [encodeFrame, be32, hc]
  rw [hshape]
  simp only [decodeFrame, htc]
  rw [be32_decode payload.length hlen]
  have hle : payload.length ≤ (payload ++ rest).length := by
    simp [List.length_append]
  rw [if_pos hle, List.take_left, List.drop_left, hstrip]

/-- Sequence decode of a concatenation of well-formed frames. -/
theorem decodeFrameSeq_encodeFrameSeq (fs : List (List Char × List Byte))
    (hfs : ∀ f ∈ fs, f.1 ∈ definedTags ∧ f.2.length ≤ 1048576) :
    decodeFrameSeq fs.length (encodeFrameSeq fs) = some fs := by
  induction fs with
  | nil => rfl
  | cons f tl ih =>
    obtain ⟨htag, hlen⟩ := hfs f (List.mem_cons_self f tl)
    obtain ⟨h4, hdec⟩ := definedTags_pad_roundtrip f.1 htag
    have hstep : encodeFrameSeq (f :: tl) = encodeFrame f.1 f.2 ++ encodeFrameSeq tl := by
      simp [encodeFrameSeq]
    have hone := decodeFrame_encodeFrame f.1 f.2 (encodeFrameSeq tl) h4 hdec (by omega)
    have ihtl := ih (fun g hg => hfs g (List.mem_cons_of_mem f hg))
    simp only [List.length_cons, decodeFrameSeq, hstep, hone, ihtl]

/-- C3: for every defined tag and payload of length at most 2^20, a frame
encoded by `send_message` decodes under `recv_message` to exactly the
original payload and the original tag (trailing padding spaces trimmed),
with the rest of the stream untouched; and a concatenation of such frames
decodes back to the original sequence with no boundary ambiguity. -/
theorem frame_roundtrip_spec (t : List Char) (payload rest : List Byte)
    (fs : List (List Char × List Byte))
    (ht : t ∈ definedTags) (hp : payload.length ≤ 1048576)
    (hfs : ∀ f ∈ fs, f.1 ∈ definedTags ∧ f.2.length ≤ 1048576) :
    decodeFrame (encodeFrame t payload ++ rest) = some (t, payload, rest)
    ∧ decodeFrameSeq fs.length (encodeFrameSeq fs) = some fs := by
  obtain ⟨h4, hdec⟩ := definedTags_pad_roundtrip t ht
  exact ⟨decodeFrame_encodeFrame t payload rest h4 hdec (by omega),
    decodeFrameSeq_encodeFrameSeq fs hfs⟩

/-- Witness for `frame_roundtrip_spec` at a concrete JOB frame and a concrete
two-frame OK/OBJ stream. -/
theorem frame_roundtrip_spec_witness :
    decodeFrame (encodeFrame "JOB".toList [mkByte 1, mkByte 200] ++ [mkByte 9]) =
      some ("JOB".toList, [mkByte 1, mkByte 200], [mkByte 9])
    ∧ decodeFrameSeq 2 (encodeFrameSeq [("OK".toList, []), ("OBJ".toList, [mkByte 2])]) =
      some [("OK".toList, []), ("OBJ".toList, [mkByte 2])] :=
  frame_roundtrip_spec "JOB".toList [mkByte 1, mkByte 200] [mkByte 9]
    [("OK".toList, []), ("OBJ".toList, [mkByte 2])]
    (by decide) (by norm_num) (by decide)

/-- Per-worker state held by the coordinator, mirroring the `WorkerState`
dataclass (`ppc_compile_coordinator.py` lines 45-58). Python floats are
modelled as rationals, Python ints as naturals. -/
structure WorkerState where
  host : String
  port : ℕ
  name : String
  weight : ℚ
  available : Bool
  cpus : ℕ
  load : ℚ
  arch : String
  active_jobs : ℕ
  total_jobs : ℕ
  total_time : ℚ
  last_check : ℚ
deriving DecidableEq

/-- The selection score from `get_best_worker`
(`ppc_compile_coordinator.py` line 163):
`weight * cpus / (1 + load + active_jobs)`. -/
def score (w : WorkerState) : ℚ :=
  w.weight * w.cpus / (1 + w.load + w.active_jobs)

/-- Python's `max(..., key=score)` over a nonempty list: keep the current
maximum and replace it only on a strictly greater score, so the earliest
maximal element wins. -/
def maxByScore (b : WorkerState) : List WorkerState → WorkerState
  | [] => b
  | y :: ys => maxByScore (if score b < score y then y else b) ys

/-- `DistributedCompiler.get_best_worker`
(`ppc_compile_coordinator.py` lines 154-165): among the workers with
`available = true` (in configured order), return the score argmax via
Python `max`; `none` when no worker is available. -/
def getBestWorker (ws : List WorkerState) : Option WorkerState :=
  match ws.filter (fun w => w.available) with
  | [] => none
  | b :: rest => some (maxByScore b rest)

/-- The result of the Python-max fold splits its input list into a strict
prefix of strictly smaller scores, the chosen element, and a suffix of
no-larger scores: it is the earliest argmax. -/
theorem maxByScore_decomp (xs : List WorkerState) : ∀ b : WorkerState,
    ∃ l₁ l₂, b :: xs = l₁ ++ maxByScore b xs :: l₂
      ∧ (∀ y ∈ l₁, score y < score (maxByScore b xs))
      ∧ (∀ y ∈ l₂, score y ≤ score (maxByScore b xs)) := by
  induction xs with
  | nil =>
    intro b
    exact ⟨[], [], rfl, by simp, by simp⟩
  | cons y ys ih =>
    intro b
    by_cases h : score b < score y
    case pos =>
      obtain ⟨l₁, l₂, hsplit, hlt, hle⟩ := ih y
      have hrec : maxByScore b (y :: ys) = maxByScore y ys := by
        simp [maxByScore, h]
      rw [hrec]
      have hyle : score y ≤ score (maxByScore y ys) := by
        cases l₁ with
        | nil =>
          have hh : y :: ys = maxByScore y ys :: l₂ := by simpa using hsplit
          injection hh with h1 h2
          exact le_of_eq (congrArg score h1)
        | cons z l₁' =>
          have hh : y :: ys = z :: (l₁' ++ maxByScore y ys :: l₂) := by simpa using hsplit
          injection hh with h1 h2
          have hz := hlt z (List.mem_cons_self z l₁')
          rw [← h1] at hz
          exact le_of_lt hz
      refine ⟨b :: l₁, l₂, ?_, ?_, hle⟩
      · simpa using congrArg (List.cons b) hsplit
      · intro z hz
        rcases List.mem_cons.mp hz with rfl | hzl
        · exact lt_of_lt_of_le h hyle
        · exact hlt z hzl
    case neg =>
      obtain ⟨l₁, l₂, hsplit, hlt, hle⟩ := ih b
      have hrec : maxByScore b (y :: ys) = maxByScore b ys := by
        simp [maxByScore, h]
      have hyb : score y ≤ score b := not_lt.mp h
      rw [hrec]
      cases l₁ with
      | nil =>
        have hh : b :: ys = maxByScore b ys :: l₂ := by simpa using hsplit
        injection hh with h1 h2
        refine ⟨[], y :: ys, ?_, by simp, ?_⟩
        · rw [List.nil_append, ← h1]
        · intro z hz
          rcases List.mem_cons.mp hz with rfl | hzl
          · exact le_trans hyb (le_of_eq (congrArg score h1))
          · exact hle z (h2 ▸ hzl)
      | cons z l₁' =>
        have hh : b :: ys = z :: (l₁' ++ maxByScore b ys :: l₂) := by simpa using hsplit
        injection hh with h1 h2
        have hblt : score b < score (maxByScore b ys) := by
          have hz := hlt z (List.mem_cons_self z l₁')
          rw [← h1] at hz
          exact hz
        refine ⟨b :: y :: l₁', l₂, ?_, ?_, hle⟩
        · rw [List.cons_append, List.cons_append]
          conv_lhs => rw [h2]
        · intro u hu
          rcases List.mem_cons.mp hu with rfl | hu'
          · exact hblt
          · rcases List.mem_cons.mp hu' with rfl | hul
            · exact lt_of_le_of_lt hyb hblt
            · exact hlt u (List.mem_cons_of_mem z hul)

/-- `get_best_worker` returns `None` exactly when no worker is available. -/
theorem getBestWorker_none_iff (ws : List WorkerState) :
    getBestWorker ws = none ↔ ∀ w ∈ ws, w.available = false := by
  have h1 : getBestWorker ws = none ↔ ws.filter (fun w => w.available) = [] := by
    cases h : ws.filter (fun w => w.available) <;> simp [getBestWorker, h]
  rw [h1, List.filter_eq_nil_iff]
  simp

/-- A returned worker is the earliest score argmax among the available
workers, in configured order. -/
theorem getBestWorker_some (ws : List WorkerState) (w : WorkerState)
    (h : getBestWorker ws = some w) :
    ∃ l₁ l₂, ws.filter (fun u => u.available) = l₁ ++ w :: l₂
      ∧ (∀ y ∈ l₁, score y < score w) ∧ (∀ y ∈ l₂, score y ≤ score w) := by
  cases hf : ws.filter (fun u => u.available) with
  | nil => simp [getBestWorker, hf] at h
  | cons b rest =>
    simp only [getBestWorker, hf, Option.some.injEq] at h
    obtain ⟨l₁, l₂, hsplit, hlt, hle⟩ := maxByScore_decomp rest b
    subst h
    exact ⟨l₁, l₂, hsplit, hlt, hle⟩

/-- Same weight, cpus and load: the busier worker scores strictly lower. -/
theorem score_lt_of_more_active (w₁ w₂ : WorkerState)
    (hwt : 0 < w₁.weight) (hc : 0 < w₁.cpus) (hld : 0 ≤ w₁.load)
    (hw : w₁.weight = w₂.weight) (hcp : w₁.cpus = w₂.cpus) (hl : w₁.load = w₂.load)
    (ha : w₁.active_jobs < w₂.active_jobs) :
    score w₂ < score w₁ := by
  unfold score
  rw [← hw, ← hcp, ← hl]
  have hnum : 0 < w₁.weight * (w₁.cpus : ℚ) := by
    apply mul_pos hwt
    exact_mod_cast hc
  have hden1 : 0 < 1 + w₁.load + (w₁.active_jobs : ℚ) := by
    have hca : (0:ℚ) ≤ (w₁.active_jobs : ℚ) := Nat.cast_nonneg _
    linarith
  have hlt : 1 + w₁.load + (w₁.active_jobs : ℚ) < 1 + w₁.load + (w₂.active_jobs : ℚ) := by
    have hca : (w₁.active_jobs : ℚ) < (w₂.active_jobs : ℚ) := by exact_mod_cast ha
    linarith
  exact div_lt_div_of_pos_left hnum hden1 hlt

/-- Same cpus, load and active jobs: the lighter-weighted worker scores
strictly lower. -/
theorem score_lt_of_less_weight (w₁ w₂ : WorkerState)
    (hc : 0 < w₁.cpus) (hld : 0 ≤ w₁.load)
    (hw : w₂.weight < w₁.weight) (hcp : w₁.cpus = w₂.cpus) (hl : w₁.load = w₂.load)
    (ha : w₁.active_jobs = w₂.active_jobs) :
    score w₂ < score w₁ := by
  unfold score
  rw [← hcp, ← hl, ← ha]
  have hden : 0 < 1 + w₁.load + (w₁.active_jobs : ℚ) := by
    have hca : (0:ℚ) ≤ (w₁.active_jobs : ℚ) := Nat.cast_nonneg _
    linarith
  rw [div_lt_div_iff_of_pos_right hden]
  exact mul_lt_mul_of_pos_right hw (by exact_mod_cast hc)

/-- Same weight, cpus and active jobs: the more-loaded worker scores
strictly lower. -/
theorem score_lt_of_more_load (w₁ w₂ : WorkerState)
    (hwt : 0 < w₁.weight) (hc : 0 < w₁.cpus) (hld : 0 ≤ w₁.load)
    (hw : w₁.weight = w₂.weight) (hcp : w₁.cpus = w₂.cpus)
    (ha : w₁.active_jobs = w₂.active_jobs) (hl : w₁.load < w₂.load) :
    score w₂ < score w₁ := by
  unfold score
  rw [← hw, ← hcp, ← ha]
  have hnum : 0 < w₁.weight * (w₁.cpus : ℚ) := by
    apply mul_pos hwt
    exact_mod_cast hc
  have hden1 : 0 < 1 + w₁.load + (w₁.active_jobs : ℚ) := by
    have hca : (0:ℚ) ≤ (w₁.active_jobs : ℚ) := Nat.cast_nonneg _
    linarith
  have hlt : 1 + w₁.load + (w₁.active_jobs : ℚ) < 1 + w₂.load + (w₁.active_jobs : ℚ) := by
    linarith
  exact div_lt_div_of_pos_left hnum hden1 hlt

/-- In a two-worker pool, whichever order the pool lists them, the strictly
higher-scoring worker is selected. -/
theorem getBestWorker_pair (w₁ w₂ : WorkerState)
    (h₁ : w₁.available = true) (h₂ : w₂.available = true) (h : score w₂ < score w₁) :
    getBestWorker [w₁, w₂] = some w₁ ∧ getBestWorker [w₂, w₁] = some w₁ := by
  have hf1 : List.filter (fun w => w.available) [w₁, w₂] = [w₁, w₂] := by
    simp [List.filter, h₁, h₂]
  have hf2 : List.filter (fun w => w.available) [w₂, w₁] = [w₂, w₁] := by
    simp [List.filter, h₁, h₂]
  have g1 : getBestWorker [w₁, w₂] = some (maxByScore w₁ [w₂]) := by
    unfold getBestWorker
    rw [hf1]
  have g2 : getBestWorker [w₂, w₁] = some (maxByScore w₂ [w₁]) := by
    unfold getBestWorker
    rw [hf2]
  constructor
  · rw [g1]
    simp only [maxByScore]
    rw [if_neg (not_lt.mpr (le_of_lt h))]
  · rw [g2]
    simp only [maxByScore]
    rw [if_pos h]

/-- C1: `get_best_worker` considers exactly the workers with
`available = true` and returns the earliest-position argmax of
`score(w) = weight * cpus / (1 + load + active_jobs)` (Python `max` keeps
the first maximal element), returning `none` when no worker is available;
consequently, in a two-worker pool of available workers with positive
weight and cpus and nonnegative load, differing only in `active_jobs` the
less busy one wins, differing only in `weight` the heavier one wins, and
differing only in `load` the less loaded one wins — in either listing
order. -/
theorem getBestWorker_selection_spec (ws : List WorkerState) (w₁ w₂ : WorkerState)
    (h₁ : w₁.available = true) (h₂ : w₂.available = true)
    (hwt : 0 < w₁.weight) (hc : 0 < w₁.cpus) (hld : 0 ≤ w₁.load) :
    (getBestWorker ws = none ↔ ∀ w ∈ ws, w.available = false)
    ∧ (∀ w, getBestWorker ws = some w →
        ∃ l₁ l₂, ws.filter (fun u => u.available) = l₁ ++ w :: l₂
          ∧ (∀ y ∈ l₁, score y < score w) ∧ (∀ y ∈ l₂, score y ≤ score w))
    ∧ (w₁.weight = w₂.weight → w₁.cpus = w₂.cpus → w₁.load = w₂.load →
        w₁.active_jobs < w₂.active_jobs →
        getBestWorker [w₁, w₂] = some w₁ ∧ getBestWorker [w₂, w₁] = some w₁)
    ∧ (w₂.weight < w₁.weight → w₁.cpus = w₂.cpus → w₁.load = w₂.load →
        w₁.active_jobs = w₂.active_jobs →
        getBestWorker [w₁, w₂] = some w₁ ∧ getBestWorker [w₂, w₁] = some w₁)
    ∧ (w₁.load < w₂.load → w₁.weight = w₂.weight → w₁.cpus = w₂.cpus →
        w₁.active_jobs = w₂.active_jobs →
        getBestWorker [w₁, w₂] = some w₁ ∧ getBestWorker [w₂, w₁] = some w₁) := by
  refine ⟨getBestWorker_none_iff ws, fun w => getBestWorker_some ws w, ?_, ?_, ?_⟩
  · intro hw hcp hl ha
    exact getBestWorker_pair w₁ w₂ h₁ h₂ (score_lt_of_more_active w₁ w₂ hwt hc hld hw hcp hl ha)
  · intro hw hcp hl ha
    exact getBestWorker_pair w₁ w₂ h₁ h₂ (score_lt_of_less_weight w₁ w₂ hc hld hw hcp hl ha)
  · intro hl hw hcp ha
    exact getBestWorker_pair w₁ w₂ h₁ h₂ (score_lt_of_more_load w₁ w₂ hwt hc hld hw hcp ha hl)

/-- A concrete G5 worker state, as produced by a successful probe of the
first configured worker. -/
def workerG5A : WorkerState :=
  { host := "192.168.0.130", port := 5555, name := "g5-130", weight := 2,
    available := true, cpus := 2, load := 0, arch := "g5",
    active_jobs := 0, total_jobs := 0, total_time := 0, last_check := 0 }

/-- A concrete G5 worker state identical to `workerG5A` except that one job
is in flight. -/
def workerG5B : WorkerState :=
  { workerG5A with host := "192.168.0.179", name := "g5-179", active_jobs := 1 }

/-- Witness for `getBestWorker_selection_spec`: between two otherwise equal
available G5 workers, the one with fewer active jobs is selected whichever
way the pool lists them. -/
theorem getBestWorker_selection_spec_witness :
    getBestWorker [workerG5A, workerG5B] = some workerG5A
    ∧ getBestWorker [workerG5B, workerG5A] = some workerG5A :=
  (getBestWorker_selection_spec [workerG5A, workerG5B] workerG5A workerG5B
    rfl rfl (by decide) (by decide) (by decide)).2.2.1 rfl rfl rfl (by decide)

/-- Events on one worker's shared mutable state, as performed under the
pool lock by `compile_file` / `_compile_remote`. -/
inductive PoolEvent
  | incActive
  | decActive
  | incTotal
  | markUnavail
deriving DecidableEq

/-- Outcome of one `_compile_remote` dispatch attempt: remote success
(OK then OBJ), remote compiler failure (ERR reply), a reply frame with an
unexpected tag, or a thrown exception. -/
inductive DispatchOutcome
  | remoteOk
  | remoteErr
  | protoErr
  | exn
deriving DecidableEq

/-- Mutations `_compile_remote` performs on the selected worker's state
per outcome (`ppc_compile_coordinator.py` lines 238-280): success bumps
the cumulative totals (lines 264-266); ERR and wrong-tag replies mutate
nothing; an exception marks the worker unavailable (line 275).
`active_jobs` is never touched inside `_compile_remote`. -/
def dispatchEvents : DispatchOutcome → List PoolEvent
  | .remoteOk => [.incTotal]
  | .remoteErr => []
  | .protoErr => []
  | .exn => [.markUnavail]

/-- The event trace of one `compile_file` call on its selected worker
(`ppc_compile_coordinator.py` lines 190-198): `active_jobs += 1` under the
lock before the dispatch, then the dispatch attempt, then
`active_jobs -= 1` in a `finally:` block — hence on every exit path. -/
def compileFileEvents (o : DispatchOutcome) : List PoolEvent :=
  .incActive :: (dispatchEvents o ++ [.decActive])

/-- Effect of one event on the worker's `active_jobs` counter (a Python
int, modelled as ℤ). -/
def activeDelta : PoolEvent → ℤ
  | .incActive => 1
  | .decActive => -1
  | .incTotal => 0
  | .markUnavail => 0

/-- Apply one event to the `active_jobs` counter. -/
def applyActive (a : ℤ) (e : PoolEvent) : ℤ := a + activeDelta e

/-- Net effect of an event list on `active_jobs`. -/
def sumDeltas (es : List PoolEvent) : ℤ := (es.map activeDelta).sum

/-- `es` is an interleaving of the traces `ts`: concurrent `compile_file`
calls may overlap arbitrarily, but each call's own events occur in program
order (each mutation is atomic under the pool lock). -/
inductive Interleaving : List (List PoolEvent) → List PoolEvent → Prop
  | done (ts : List (List PoolEvent)) (h : ∀ t ∈ ts, t = []) : Interleaving ts []
  | step (ts : List (List PoolEvent)) (i : ℕ) (e : PoolEvent) (t : List PoolEvent)
      (es : List PoolEvent) (hi : ts[i]? = some (e :: t))
      (hrec : Interleaving (ts.set i t) es) : Interleaving ts (e :: es)

/-- Folding the counter along an event list adds the net effect. -/
theorem foldl_applyActive (es : List PoolEvent) :
    ∀ a : ℤ, List.foldl applyActive a es = a + sumDeltas es := by
  induction es with
  | nil => intro a; simp [sumDeltas]
  | cons e tl ih =>
    intro a
    simp only [List.foldl_cons, ih, sumDeltas, List.map_cons, List.sum_cons, applyActive]
    ring

/-- The net effect of an append splits. -/
theorem sumDeltas_append (es₁ es₂ : List PoolEvent) :
    sumDeltas (es₁ ++ es₂) = sumDeltas es₁ + sumDeltas es₂ := by
  simp [sumDeltas]

/-- Taking one event off a pending trace moves its delta out of the total. -/
theorem sum_map_sumDeltas_set (ts : List (List PoolEvent)) :
    ∀ (i : ℕ) (e : PoolEvent) (t : List PoolEvent), ts[i]? = some (e :: t) →
      (ts.map sumDeltas).sum = activeDelta e + ((ts.set i t).map sumDeltas).sum := by
  induction ts with
  | nil => intro i e t h; simp at h
  | cons hd tl ih =>
    intro i e t h
    cases i with
    | zero =>
      simp only [List.getElem?_cons_zero, Option.some.injEq] at h
      subst h
      simp only [List.set_cons_zero, List.map_cons, List.sum_cons]
      have hsum : sumDeltas (e :: t) = activeDelta e + sumDeltas t := by
        simp [sumDeltas]
      rw [hsum]
      ring
    | succ j =>
      simp only [List.getElem?_cons_succ] at h
      simp only [List.set_cons_succ, List.map_cons, List.sum_cons]
      rw [ih j e t h]
      ring

/-- The remaining events of an interleaving carry exactly the net effect of
the pending traces. -/
theorem interleaving_sumDeltas (ts : List (List PoolEvent)) (es : List PoolEvent)
    (h : Interleaving ts es) : sumDeltas es = (ts.map sumDeltas).sum := by
  induction h with
  | done ts h =>
    have : (ts.map sumDeltas).sum = 0 := by
      apply List.sum_eq_zero
      intro x hx
      obtain ⟨t, ht, rfl⟩ := List.mem_map.mp hx
      rw [h t ht]
      rfl
    simp [sumDeltas, this]
  | step ts i e t es hi hrec ih =>
    have hcons : sumDeltas (e :: es) = activeDelta e + sumDeltas es := by
      simp [sumDeltas]
    rw [hcons, ih, ← sum_map_sumDeltas_set ts i e t hi]

/-- Helper: an element found by position is a member. -/
theorem mem_of_getElemOpt {α : Type} (l : List α) (i : ℕ) (a : α) (h : l[i]? = some a) :
    a ∈ l := by
  rw [← List.get?_eq_getElem?] at h
  exact List.get?_mem h

/-- Inversion of an interleaving that still has events to deliver. -/
theorem interleaving_cons_inv (ts : List (List PoolEvent)) (e : PoolEvent)
    (es : List PoolEvent) (h : Interleaving ts (e :: es)) :
    ∃ i t, ts[i]? = some (e :: t) ∧ Interleaving (ts.set i t) es :=
  match h with
  | .step _ i _ t _ hi hrec => ⟨i, t, hi, hrec⟩

/-- After consuming a prefix of an interleaving, the remaining events form
an interleaving of per-trace suffixes. -/
theorem interleaving_suffix (pre : List PoolEvent) :
    ∀ (ts : List (List PoolEvent)) (es suf : List PoolEvent),
      Interleaving ts es → es = pre ++ suf →
      ∃ ts', Interleaving ts' suf ∧ ∀ t' ∈ ts', ∃ t ∈ ts, ∃ s, s ++ t' = t := by
  induction pre with
  | nil =>
    intro ts es suf h heq
    simp only [List.nil_append] at heq
    subst heq
    exact ⟨ts, h, fun t' ht' => ⟨t', ht', [], by simp⟩⟩
  | cons e pre' ih =>
    intro ts es suf h heq
    subst heq
    obtain ⟨i, t, hi, hrec⟩ := interleaving_cons_inv ts e (pre' ++ suf) h
    obtain ⟨ts', h1, h2⟩ := ih (ts.set i t) (pre' ++ suf) suf hrec rfl
    refine ⟨ts', h1, ?_⟩
    intro t' ht'
    obtain ⟨u, hu, s, hs⟩ := h2 t' ht'
    rcases List.mem_or_eq_of_mem_set hu with hu' | hut
    · exact ⟨u, hu', s, hs⟩
    · rw [hut] at hs
      exact ⟨e :: t, mem_of_getElemOpt ts i (e :: t) hi, e :: s, by rw [List.cons_append, hs]⟩

/-- The dispatch-attempt events never touch `active_jobs`. -/
theorem dispatchEvents_delta_zero (o : DispatchOutcome) :
    ∀ e ∈ dispatchEvents o, activeDelta e = 0 := by
  cases o <;> simp [dispatchEvents, activeDelta]

/-- A whole `compile_file` trace is balanced on `active_jobs`. -/
theorem compileFileEvents_sum_zero (o : DispatchOutcome) :
    sumDeltas (compileFileEvents o) = 0 := by
  have hmid : sumDeltas (dispatchEvents o) = 0 := by
    cases o <;> rfl
  have : sumDeltas (compileFileEvents o) =
      activeDelta .incActive + (sumDeltas (dispatchEvents o) + sumDeltas [.decActive]) := by
    simp [compileFileEvents, sumDeltas]
  rw [this, hmid]
  rfl

/-- Any prefix of the dispatch-plus-decrement tail has net effect ≥ -1. -/
theorem tail_prefix_sum (mid : List PoolEvent) :
    (∀ e ∈ mid, activeDelta e = 0) →
    ∀ s r : List PoolEvent, s ++ r = mid ++ [PoolEvent.decActive] → -1 ≤ sumDeltas s := by
  induction mid with
  | nil =>
    intro _ s r hsr
    cases s with
    | nil => simp [sumDeltas]
    | cons x s' =>
      rw [List.cons_append, List.nil_append] at hsr
      injection hsr with hx hs'
      subst hx
      have : s' = [] := List.append_eq_nil.mp hs' |>.1
      subst this
      simp [sumDeltas, activeDelta]
  | cons m mid' ih =>
    intro hmid s r hsr
    cases s with
    | nil => simp [sumDeltas]
    | cons x s' =>
      rw [List.cons_append, List.cons_append] at hsr
      injection hsr with hx hs'
      have hrest := ih (fun e he => hmid e (List.mem_cons_of_mem m he)) s' r hs'
      have hm : activeDelta x = 0 := by
        rw [hx]
        exact hmid m (List.mem_cons_self m mid')
      have hsum : sumDeltas (x :: s') = activeDelta x + sumDeltas s' := by
        simp [sumDeltas]
      rw [hsum, hm]
      linarith

/-- Any suffix of one `compile_file` trace has nonpositive net effect on
`active_jobs`: the decrement is never outrun by the increment. -/
theorem compileFileEvents_suffix_nonpos (o : DispatchOutcome) (t' s : List PoolEvent)
    (h : s ++ t' = compileFileEvents o) : sumDeltas t' ≤ 0 := by
  have htot : sumDeltas s + sumDeltas t' = 0 := by
    rw [← sumDeltas_append, h, compileFileEvents_sum_zero]
  have hs : 0 ≤ sumDeltas s := by
    cases s with
    | nil => simp [sumDeltas]
    | cons x s' =>
      have hx : x = PoolEvent.incActive ∧ s' ++ t' = dispatchEvents o ++ [PoolEvent.decActive] := by
        rw [List.cons_append] at h
        unfold compileFileEvents at h
        exact ⟨by injection h, by injection h⟩
      obtain ⟨hx1, hx2⟩ := hx
      subst hx1
      have hpre := tail_prefix_sum (dispatchEvents o) (dispatchEvents_delta_zero o) s' t' hx2
      have hsum : sumDeltas (PoolEvent.incActive :: s') = 1 + sumDeltas s' := by
        simp [sumDeltas, activeDelta]
      rw [hsum]
      linarith
  linarith

/-- C2: on any worker, every `compile_file` call that selected it
increments `active_jobs` (under the pool lock) before the dispatch begins
and decrements it after the dispatch returns on every path — remote
success, remote compiler failure, protocol failure or thrown exception —
so along any interleaving of such calls the counter never drops below its
starting value (never below 0), and once all calls have completed it is
back to exactly its starting value (0). -/
theorem compileFile_pool_accounting (os : List DispatchOutcome)
    (es pre suf : List PoolEvent) (a₀ : ℤ)
    (hil : Interleaving (os.map compileFileEvents) es)
    (h0 : 0 ≤ a₀) (hsplit : es = pre ++ suf) :
    (∀ o, compileFileEvents o =
      PoolEvent.incActive :: (dispatchEvents o ++ [PoolEvent.decActive]))
    ∧ 0 ≤ List.foldl applyActive a₀ pre
    ∧ List.foldl applyActive a₀ es = a₀ := by
  have hes : sumDeltas es = 0 := by
    rw [interleaving_sumDeltas _ _ hil]
    apply List.sum_eq_zero
    intro x hx
    obtain ⟨t, ht, rfl⟩ := List.mem_map.mp hx
    obtain ⟨o, _, rfl⟩ := List.mem_map.mp ht
    exact compileFileEvents_sum_zero o
  refine ⟨fun o => rfl, ?_, ?_⟩
  · obtain ⟨ts', h1, h2⟩ := interleaving_suffix pre (os.map compileFileEvents) es suf hil hsplit
    have hsufsum : sumDeltas suf ≤ 0 := by
      rw [interleaving_sumDeltas _ _ h1]
      have hnp : ∀ x ∈ ts'.map sumDeltas, x ≤ 0 := by
        intro x hx
        obtain ⟨t', ht', rfl⟩ := List.mem_map.mp hx
        obtain ⟨t, ht, s, hs⟩ := h2 t' ht'
        obtain ⟨o, _, rfl⟩ := List.mem_map.mp ht
        exact compileFileEvents_suffix_nonpos o t' s hs
      calc (ts'.map sumDeltas).sum ≤ (ts'.map sumDeltas).length • (0:ℤ) := by
            exact List.sum_le_card_nsmul _ 0 hnp
        _ = 0 := by simp
    have hpresum : 0 ≤ sumDeltas pre := by
      have : sumDeltas pre + sumDeltas suf = 0 := by
        rw [← sumDeltas_append, ← hsplit, hes]
      linarith
    rw [foldl_applyActive]
    linarith
  · rw [foldl_applyActive, hes]
    ring

/-- Putting an exhausted trace in front preserves an interleaving. -/
theorem interleaving_nil_cons (ts : List (List PoolEvent)) (es : List PoolEvent)
    (h : Interleaving ts es) : Interleaving ([] :: ts) es := by
  induction h with
  | done ts h =>
    refine .done _ ?_
    intro t ht
    rcases List.mem_cons.mp ht with rfl | h2
    · rfl
    · exact h t h2
  | step ts i e t es hi hrec ih =>
    exact .step ([] :: ts) (i + 1) e t es (by simpa using hi) (by simpa using ih)

/-- A trace may be played to completion at the front of an interleaving. -/
theorem interleaving_play (t : List PoolEvent) :
    ∀ (ts : List (List PoolEvent)) (es : List PoolEvent),
      Interleaving ts es → Interleaving (t :: ts) (t ++ es) := by
  induction t with
  | nil =>
    intro ts es h
    simpa using interleaving_nil_cons ts es h
  | cons e t' ih =>
    intro ts es h
    exact .step ((e :: t') :: ts) 0 e t' (t' ++ es) (by simp) (ih ts es h)

/-- Sequential execution is one interleaving: traces run one after the
other. -/
theorem interleaving_flatten : ∀ ts : List (List PoolEvent), Interleaving ts ts.flatten := by
  intro ts
  induction ts with
  | nil => exact .done [] (by simp)
  | cons t ts ih => simpa using interleaving_play t ts ts.flatten ih

/-- Witness for `compileFile_pool_accounting`: a successful dispatch
followed by a failed (exception) dispatch, run sequentially from an idle
worker, keeps `active_jobs` nonnegative throughout and leaves it at 0. -/
theorem compileFile_pool_accounting_witness :
    0 ≤ List.foldl applyActive 0
      (([DispatchOutcome.remoteOk, DispatchOutcome.exn].map compileFileEvents).flatten)
    ∧ List.foldl applyActive 0
      (([DispatchOutcome.remoteOk, DispatchOutcome.exn].map compileFileEvents).flatten) = 0 := by
  have h := compileFile_pool_accounting [DispatchOutcome.remoteOk, DispatchOutcome.exn]
    (([DispatchOutcome.remoteOk, DispatchOutcome.exn].map compileFileEvents).flatten)
    (([DispatchOutcome.remoteOk, DispatchOutcome.exn].map compileFileEvents).flatten) []
    0 (interleaving_flatten _) (by norm_num) (by simp)
  exact ⟨h.2.1, h.2.2⟩

/-- The reply the dispatcher sees on a compile exchange: an ERR frame with
the remote compiler's stderr; an OK frame followed by an OBJ frame; an OK
frame followed by a frame with some other tag; a first frame whose tag is
neither OK nor ERR; or an exception thrown during the exchange (connect or
read failure, invalid JSON, and so on). -/
inductive Reply
  | errReply (stderrMsg : String)
  | okObj (obj : List Byte)
  | okWrongTag (tag : String)
  | wrongFirstTag (tag : String)
  | exn (msg : String)
deriving DecidableEq

/-- What `_compile_remote` hands back to `compile_file`: a successful
remote compile (output path), a failure message, or the result of the
local-fallback compile run from the exception handler. -/
inductive CompileResult
  | success (outputPath : String)
  | failure (msg : String)
  | localResult (ok : Bool) (msg : String)
deriving DecidableEq

/-- `DistributedCompiler._compile_remote` reply handling
(`ppc_compile_coordinator.py` lines 238-280) as a transition on the
selected worker's state: ERR returns the reported stderr and touches
nothing (lines 240-244); OK then OBJ bumps `total_jobs`/`total_time` and
succeeds (lines 246-268); OK then a wrong tag returns a failure and
touches nothing (lines 250-252); a first tag that is neither OK nor ERR
returns a failure and touches nothing (lines 270-271); an exception marks
the worker unavailable and either runs the local fallback or returns the
error (lines 273-280). -/
def compileRemote (w : WorkerState) (r : Reply) (localFallback : Bool)
    (localRes : Bool × String) (outputPath : String) (elapsedRemote : ℚ) :
    WorkerState × CompileResult :=
  match r with
  | .errReply msg => (w, .failure msg)
  | .okObj _ =>
    ({ w with total_jobs := w.total_jobs + 1, total_time := w.total_time + elapsedRemote },
      .success outputPath)
  | .okWrongTag t => (w, .failure ("Expected OBJ, got " ++ t))
  | .wrongFirstTag t => (w, .failure ("Unexpected response: " ++ t))
  | .exn msg =>
    let w2 := { w with available := false }
    if localFallback then (w2, .localResult localRes.1 localRes.2)
    else (w2, .failure msg)

/-- C4: on an ERR reply (remote compiler exited non-zero),
`_compile_remote` returns the failure with the reported stderr, leaves the
worker's state — in particular its `available` flag — untouched, and never
runs the local fallback, whether or not fallback is enabled. -/
theorem compileRemote_err_spec (w : WorkerState) (msg : String) (fb : Bool)
    (lr : Bool × String) (op : String) (el : ℚ) :
    (compileRemote w (.errReply msg) fb lr op el).1 = w
    ∧ (compileRemote w (.errReply msg) fb lr op el).1.available = w.available
    ∧ (compileRemote w (.errReply msg) fb lr op el).2 = .failure msg := by
  exact ⟨rfl, rfl, rfl⟩

/-- C5 (counterexample to the claim as stated): a wrong-tag protocol error
does NOT mark the worker unavailable — after `_compile_remote` sees OK
followed by a non-OBJ tag, or a first tag that is neither OK nor ERR, the
worker's `available` flag is still true. -/
theorem compileRemote_wrongTag_counterexample :
    (compileRemote workerG5A (.okWrongTag "XXX") true (false, "") "out.o" 0).1.available = true
    ∧ (compileRemote workerG5A (.wrongFirstTag "XXX") true (false, "") "out.o" 0).1.available
      = true :=
  ⟨rfl, rfl⟩

/-- C5 (amended): a reply frame with an unexpected tag — OK followed by a
non-OBJ frame, or a first reply that is neither OK nor ERR — makes
`_compile_remote` return the failure to the caller with the worker's state
(including `available`) left unchanged; only a thrown exception (connect or
read failure, invalid JSON) marks the worker `available = false`. -/
theorem compileRemote_protoErr_spec (w : WorkerState) (t msg : String) (fb : Bool)
    (lr : Bool × String) (op : String) (el : ℚ) :
    compileRemote w (.okWrongTag t) fb lr op el = (w, .failure ("Expected OBJ, got " ++ t))
    ∧ compileRemote w (.wrongFirstTag t) fb lr op el
      = (w, .failure ("Unexpected response: " ++ t))
    ∧ (compileRemote w (.exn msg) fb lr op el).1.available = false := by
  refine ⟨rfl, rfl, ?_⟩
  cases fb <;> rfl

/-- Frames the worker can send back during one job. -/
inductive WorkerSend
  | errText (msg : String)
  | errJson
  | okJson
  | objData
deriving DecidableEq

/-- Observable result of one `handle_compile_job` run. -/
structure JobRunResult where
  sends : List WorkerSend
  compilerRan : Bool
  headersWritten : Bool
  cleanedUp : Bool
deriving DecidableEq

/-- `handle_compile_job` (`ppc_compile_worker.py` lines 171-280) at the
level of frame tags, for the normal wire flow in which the JOB JSON
carries no inline `source_data`: read the next frame; if its tag is not
`SRC`, send `ERR` with a diagnostic and return without compiling
(lines 192-196); otherwise write the source and read the next frame;
if its tag is `HDR`, materialize the sidecar headers (lines 207-217) —
the `if` has no `else`, so any other tag is ignored and processing
continues; then run the compiler and send `ERR` (non-zero exit,
lines 245-257) or `OK` followed by `OBJ` (lines 258-273). The temporary
workspace is removed in a `finally:` block on every path (lines 275-280). -/
def handleCompileJob (srcTag hdrTag : String) (compileOk : Bool) : JobRunResult :=
  if srcTag ≠ "SRC" then
    { sends := [.errText ("Expected SRC, got " ++ srcTag)], compilerRan := false,
      headersWritten := false, cleanedUp := true }
  else if compileOk then
    { sends := [.okJson, .objData], compilerRan := true,
      headersWritten := hdrTag == "HDR", cleanedUp := true }
  else
    { sends := [.errJson], compilerRan := true,
      headersWritten := hdrTag == "HDR", cleanedUp := true }

/-- C6 (counterexample to the claim as stated): when the frame after the
source carries tag OBJ instead of HDR, the worker sends no ERR, runs the
compiler anyway, and replies OK/OBJ. -/
theorem handleCompileJob_hdr_counterexample :
    handleCompileJob "SRC" "OBJ" true =
      { sends := [WorkerSend.okJson, WorkerSend.objData], compilerRan := true,
        headersWritten := false, cleanedUp := true } := by
  decide

/-- C6 (amended): after the source is written, a frame whose tag is HDR
has its headers materialized, while a frame with any other tag is silently
ignored — no ERR frame is sent, no headers are written, the compiler still
runs and replies normally, and the workspace is still cleaned up. -/
theorem handleCompileJob_hdr_spec (hdrTag : String) (compileOk : Bool)
    (h : hdrTag ≠ "HDR") :
    (handleCompileJob "SRC" hdrTag compileOk).headersWritten = false
    ∧ (handleCompileJob "SRC" hdrTag compileOk).compilerRan = true
    ∧ (handleCompileJob "SRC" hdrTag compileOk).sends =
        (if compileOk then [WorkerSend.okJson, WorkerSend.objData] else [WorkerSend.errJson])
    ∧ (handleCompileJob "SRC" hdrTag compileOk).cleanedUp = true := by
  have hb : (hdrTag == "HDR") = false := beq_eq_false_iff_ne.mpr h
  cases compileOk <;> simp [handleCompileJob, hb]

/-- Witness for `handleCompileJob_hdr_spec` at a JOB-tagged frame and a
failing compile. -/
theorem handleCompileJob_hdr_spec_witness :
    (handleCompileJob "SRC" "JOB" false).headersWritten = false
    ∧ (handleCompileJob "SRC" "JOB" false).compilerRan = true
    ∧ (handleCompileJob "SRC" "JOB" false).sends =
        (if false then [WorkerSend.okJson, WorkerSend.objData] else [WorkerSend.errJson])
    ∧ (handleCompileJob "SRC" "JOB" false).cleanedUp = true :=
  handleCompileJob_hdr_spec "JOB" false (by decide)

/-- Observable outcome of the wrapper's `main` for a compile job. -/
structure WrapperOutcome where
  exitCode : ℤ
  ranLocalCompiler : Bool
  stderrDiagnostic : Bool
deriving DecidableEq

/-- The wrapper's host loop (`ppc_compile_wrapper.py` lines 453-458):
each attempt yields `None` exactly when a transport-level exception
occurred inside `try_remote_compile`, and an exit code otherwise; the loop
returns the first non-`None` result. -/
def firstRemoteResult : List (Option ℤ) → Option ℤ
  | [] => none
  | some rc :: _ => some rc
  | none :: rest => firstRemoteResult rest

/-- The tail of the wrapper's `main` (`ppc_compile_wrapper.py` lines
452-466): try each host in order and return the first completed result;
when every attempt fails with a transport error, consult
`PPC_DISTCC_FALLBACK` (default `"1"` when unset): any value other than
`"0"` runs the local compiler and exits with its returncode, while `"0"`
logs a diagnostic to stderr and exits 1 without compiling. -/
def wrapperDispatch (remoteResults : List (Option ℤ)) (fallbackEnv : Option String)
    (localRc : ℤ) : WrapperOutcome :=
  match firstRemoteResult remoteResults with
  | some rc => { exitCode := rc, ranLocalCompiler := false, stderrDiagnostic := false }
  | none =>
    if fallbackEnv.getD "1" ≠ "0" then
      { exitCode := localRc, ranLocalCompiler := true, stderrDiagnostic := false }
    else
      { exitCode := 1, ranLocalCompiler := false, stderrDiagnostic := true }

/-- When every attempt failed, the host loop yields nothing. -/
theorem firstRemoteResult_all_none (rs : List (Option ℤ)) (h : ∀ r ∈ rs, r = none) :
    firstRemoteResult rs = none := by
  induction rs with
  | nil => rfl
  | cons r rest ih =>
    have hr : r = none := h r (List.mem_cons_self r rest)
    subst hr
    exact ih (fun r' hr' => h r' (List.mem_cons_of_mem none hr'))

/-- C7: when every remote attempt fails with a transport error, the
wrapper falls back to the local compiler and exits with its returncode
whenever `PPC_DISTCC_FALLBACK` is unset or set to anything other than
`"0"`; when it is exactly `"0"`, the wrapper does not run the compiler at
all, prints a diagnostic to stderr, and exits 1. -/
theorem wrapperDispatch_fallback_spec (remoteResults : List (Option ℤ))
    (fallbackEnv : Option String) (localRc : ℤ)
    (hall : ∀ r ∈ remoteResults, r = none) :
    (fallbackEnv.getD "1" ≠ "0" →
      wrapperDispatch remoteResults fallbackEnv localRc =
        { exitCode := localRc, ranLocalCompiler := true, stderrDiagnostic := false })
    ∧ (fallbackEnv = some "0" →
      wrapperDispatch remoteResults fallbackEnv localRc =
        { exitCode := 1, ranLocalCompiler := false, stderrDiagnostic := true }) := by
  have hnone := firstRemoteResult_all_none remoteResults hall
  constructor
  · intro h
    simp [wrapperDispatch, hnone, h]
  · intro h
    subst h
    simp [wrapperDispatch, hnone]

/-- Witness for `wrapperDispatch_fallback_spec`: two dead hosts, once with
the fallback variable unset and once with it set to "0". -/
theorem wrapperDispatch_fallback_spec_witness :
    wrapperDispatch [none, none] none 7 =
      { exitCode := 7, ranLocalCompiler := true, stderrDiagnostic := false }
    ∧ wrapperDispatch [none, none] (some "0") 7 =
      { exitCode := 1, ranLocalCompiler := false, stderrDiagnostic := true } :=
  ⟨(wrapperDispatch_fallback_spec [none, none] none 7 (by decide)).1 (by decide),
   (wrapperDispatch_fallback_spec [none, none] (some "0") 7 (by decide)).2 rfl⟩

/-- Operations performed on a client socket, in program order. -/
inductive SocketOp
  | setTimeout (seconds : ℚ)
  | connect
  | exchange
deriving DecidableEq

/-- Socket setup of `_compile_remote`
(`ppc_compile_coordinator.py` lines 210-212): `settimeout(300.0)` and only
then `connect`, followed by the framed exchange. -/
def coordCompileSocketOps : List SocketOp :=
  [.setTimeout 300, .connect, .exchange]

/-- Socket setup of `try_remote_compile`
(`ppc_compile_wrapper.py` lines 290-293): `settimeout(CONNECT_TIMEOUT)`
with `CONNECT_TIMEOUT = 2.0`, then `connect`, then
`settimeout(COMPILE_TIMEOUT)` with `COMPILE_TIMEOUT = 300.0`. -/
def wrapperCompileSocketOps : List SocketOp :=
  [.setTimeout 2, .connect, .setTimeout 300, .exchange]

/-- Socket setup of the probe in `refresh_workers`
(`ppc_compile_coordinator.py` lines 127-129): `settimeout(2.0)` then
`connect`. -/
def coordProbeSocketOps : List SocketOp :=
  [.setTimeout 2, .connect, .exchange]

/-- Accumulator loop: the timeout last set when the first `connect` runs. -/
def connectTimeoutGo : Option ℚ → List SocketOp → Option ℚ
  | _, [] => none
  | _, SocketOp.setTimeout q :: rest => connectTimeoutGo (some q) rest
  | cur, SocketOp.connect :: _ => cur
  | cur, SocketOp.exchange :: rest => connectTimeoutGo cur rest

/-- The timeout governing the first `connect` of an operation sequence. -/
def connectTimeout (ops : List SocketOp) : Option ℚ := connectTimeoutGo none ops

/-- The first timeout set in a sequence, if any. -/
def firstTimeout : List SocketOp → Option ℚ
  | [] => none
  | SocketOp.setTimeout q :: _ => some q
  | _ :: rest => firstTimeout rest

/-- The first timeout set after the first `connect`. -/
def timeoutAfterConnect : List SocketOp → Option ℚ
  | [] => none
  | SocketOp.connect :: rest => firstTimeout rest
  | _ :: rest => timeoutAfterConnect rest

/-- C8 (counterexample to the claim as stated): the dispatcher's
`_compile_remote` does not connect under a 2-second timeout — it sets the
300-second compile timeout before `connect`, so 300 s governs the connect. -/
theorem socket_connect_timeout_counterexample :
    connectTimeout coordCompileSocketOps = some 300
    ∧ connectTimeout coordCompileSocketOps ≠ some 2 := by
  exact ⟨rfl, by decide⟩

/-- C8 (amended): the wrapper's `try_remote_compile` connects under the
2-second timeout and raises the socket timeout to 300 s only after the
connect, and the dispatcher's probe connects under 2 s, but the
dispatcher's `_compile_remote` sets the 300-second compile timeout before
`connect`, so its connect is governed by 300 s and no further timeout is
set afterwards. -/
theorem socket_timeout_spec :
    connectTimeout wrapperCompileSocketOps = some 2
    ∧ timeoutAfterConnect wrapperCompileSocketOps = some 300
    ∧ connectTimeout coordCompileSocketOps = some 300
    ∧ timeoutAfterConnect coordCompileSocketOps = none
    ∧ connectTimeout coordProbeSocketOps = some 2 :=
  ⟨rfl, rfl, rfl, rfl, rfl⟩

/-- `os.path.basename` on POSIX paths: the characters after the last
slash (scan left to right, restarting after each slash). -/
def basename (p : List Char) : List Char :=
  p.foldl (fun acc c => if c = '/' then [] else acc ++ [c]) []

/-- The basename ignores everything up to and including the last slash. -/
theorem basename_append (xs ys : List Char) :
    basename (xs ++ '/' :: ys) = basename ys := by
  unfold basename
  rw [List.foldl_append]
  simp

/-- The JSON job-request document sent in a JOB frame
(`ppc_compile_coordinator.py` lines 219-226 and
`ppc_compile_wrapper.py` lines 333-340): both clients build a dict with
fields in this insertion order. -/
structure JobRequest where
  job_id : List Char
  compiler : List Char
  args : List (List Char)
  source_name : List Char
  include_paths : List (List Char)
  defines : List (List Char)
deriving DecidableEq

/-- JSON string escaping as `json.dumps` performs it on the character
repertoire of job ids, compiler names, paths and flags (ASCII printables
plus tab, newline and carriage return). -/
def jsonEscape : List Char → List Char
  | [] => []
  | c :: rest =>
    if c = '\\' then '\\' :: '\\' :: jsonEscape rest
    else if c = '"' then '\\' :: '"' :: jsonEscape rest
    else if c = '\n' then '\\' :: 'n' :: jsonEscape rest
    else if c = '\r' then '\\' :: 'r' :: jsonEscape rest
    else if c = '\t' then '\\' :: 't' :: jsonEscape rest
    else c :: jsonEscape rest

/-- A JSON string literal. -/
def jsonStr (s : List Char) : List Char := '"' :: (jsonEscape s ++ ['"'])

/-- A JSON array of string literals, with `json.dumps`'s default
item separator. -/
def jsonStrList (l : List (List Char)) : List Char :=
  '[' :: (List.intercalate ", ".toList (l.map jsonStr) ++ [']'])

/-- `json.dumps` of a JobRequest dict: Python ≥ 3.7 preserves dict
insertion order, and both clients insert the six fields in the same
order, so the serialized text is a function of the field values alone. -/
def jobRequestJson (j : JobRequest) : List Char :=
  "\x7b\"job_id\": ".toList ++ jsonStr j.job_id
    ++ ", \"compiler\": ".toList ++ jsonStr j.compiler
    ++ ", \"args\": ".toList ++ jsonStrList j.args
    ++ ", \"source_name\": ".toList ++ jsonStr j.source_name
    ++ ", \"include_paths\": ".toList ++ jsonStrList j.include_paths
    ++ ", \"defines\": ".toList ++ jsonStrList j.defines
    ++ "\x7d".toList

/-- The JOB payload `_compile_remote` builds
(`ppc_compile_coordinator.py` lines 219-226): `source_name` is
`os.path.basename(source_path)`; no other field depends on the source
path. -/
def coordJobRequest (jid comp : List Char) (args incs defs : List (List Char))
    (sourcePath : List Char) : JobRequest :=
  { job_id := jid, compiler := comp, args := args,
    source_name := basename sourcePath, include_paths := incs, defines := defs }

/-- Does an argument start with `-I` (Python `arg.startswith('-I')`)? -/
def dashIPre (a : List Char) : Bool :=
  match a with
  | '-' :: 'I' :: _ => true
  | _ => false

/-- Does an argument start with `-D` (Python `arg.startswith('-D')`)? -/
def dashDPre (a : List Char) : Bool :=
  match a with
  | '-' :: 'D' :: _ => true
  | _ => false

/-- Classification of one wrapper argument, in the branch order of the
extraction loop (`ppc_compile_wrapper.py` lines 307-330): `-I`-prefixed
(bare or inline), `-D`-prefixed (bare or inline), one of
`-c`/`-o`/source/output (with `-o` additionally skipping the next
argument), or pass-through. -/
inductive ArgClass
  | incExact
  | incInline
  | defExact
  | defInline
  | skipTwo
  | skipOne
  | passThrough
deriving DecidableEq

/-- Classify one argument of the extraction loop. -/
def classifyArg (source output a : List Char) : ArgClass :=
  if dashIPre a then (if a = ['-', 'I'] then .incExact else .incInline)
  else if dashDPre a then (if a = ['-', 'D'] then .defExact else .defInline)
  else if a = ['-', 'c'] ∨ a = ['-', 'o'] ∨ a = source ∨ a = output then
    (if a = ['-', 'o'] then .skipTwo else .skipOne)
  else .passThrough

/-- Result of the wrapper's argument-extraction loop. -/
structure ExtractedArgs where
  include_paths : List (List Char)
  defines : List (List Char)
  other_args : List (List Char)
deriving DecidableEq

/-- The wrapper's argument-extraction loop
(`ppc_compile_wrapper.py` lines 302-330): a bare `-I`/`-D` consumes the
next argument as its value (or contributes its own empty `arg[2:]` when it
is the last argument); inline `-I...`/`-D...` contribute `arg[2:]`; `-c`,
the source path and the output path are dropped; `-o` is dropped together
with the following argument; everything else passes through in order. -/
def extractArgs (source output : List Char) : List (List Char) → ExtractedArgs
  | [] => { include_paths := [], defines := [], other_args := [] }
  | a :: rest =>
    match classifyArg source output a with
    | .incExact =>
      match rest with
      | b :: rest' =>
        { include_paths := b :: (extractArgs source output rest').include_paths,
          defines := (extractArgs source output rest').defines,
          other_args := (extractArgs source output rest').other_args }
      | [] => { include_paths := [a.drop 2], defines := [], other_args := [] }
    | .incInline =>
      { include_paths := a.drop 2 :: (extractArgs source output rest).include_paths,
        defines := (extractArgs source output rest).defines,
        other_args := (extractArgs source output rest).other_args }
    | .defExact =>
      match rest with
      | b :: rest' =>
        { include_paths := (extractArgs source output rest').include_paths,
          defines := b :: (extractArgs source output rest').defines,
          other_args := (extractArgs source output rest').other_args }
      | [] => { include_paths := [], defines := [a.drop 2], other_args := [] }
    | .defInline =>
      { include_paths := (extractArgs source output rest).include_paths,
        defines := a.drop 2 :: (extractArgs source output rest).defines,
        other_args := (extractArgs source output rest).other_args }
    | .skipTwo =>
      match rest with
      | _ :: rest' => extractArgs source output rest'
      | [] => { include_paths := [], defines := [], other_args := [] }
    | .skipOne => extractArgs source output rest
    | .passThrough =>
      { include_paths := (extractArgs source output rest).include_paths,
        defines := (extractArgs source output rest).defines,
        other_args := a :: (extractArgs source output rest).other_args }

/-- The JOB payload `try_remote_compile` builds
(`ppc_compile_wrapper.py` lines 333-340): job id `cli-<pid>`, the
extracted pass-through args, `source_name = os.path.basename(source_path)`
and the extracted `-I`/`-D` values. -/
def wrapperJobRequest (pid : ℕ) (comp sourcePath outputPath : List Char)
    (args : List (List Char)) : JobRequest :=
  { job_id := "cli-".toList ++ (Nat.repr pid).toList,
    compiler := comp,
    args := (extractArgs sourcePath outputPath args).other_args,
    source_name := basename sourcePath,
    include_paths := (extractArgs sourcePath outputPath args).include_paths,
    defines := (extractArgs sourcePath outputPath args).defines }

/-- Classification ignores which source path is being skipped, for an
argument equal to neither. -/
theorem classifyArg_congr (src₁ src₂ output a : List Char)
    (h₁ : a ≠ src₁) (h₂ : a ≠ src₂) :
    classifyArg src₁ output a = classifyArg src₂ output a := by
  unfold classifyArg
  have hiff : (a = ['-', 'c'] ∨ a = ['-', 'o'] ∨ a = src₁ ∨ a = output)
      ↔ (a = ['-', 'c'] ∨ a = ['-', 'o'] ∨ a = src₂ ∨ a = output) := by
    constructor <;> rintro (h | h | h | h) <;> tauto
  exact if_congr Iff.rfl rfl (if_congr Iff.rfl rfl (if_congr hiff rfl rfl))

/-- The source path itself is classified as a single skip, provided it is
not `-I`/`-D`-prefixed and not the literal `-o`. -/
theorem classifyArg_source (src output : List Char)
    (hI : dashIPre src = false) (hD : dashDPre src = false) (ho : src ≠ ['-', 'o']) :
    classifyArg src output src = .skipOne := by
  unfold classifyArg
  rw [hI, hD]
  simp only [Bool.false_eq_true, if_false]
  rw [if_pos (Or.inr (Or.inr (Or.inl trivial))), if_neg ho]

/-- Only the literal `-I` is classified as a bare include flag. -/
theorem classifyArg_eq_incExact (src output a : List Char)
    (h : classifyArg src output a = .incExact) : a = ['-', 'I'] := by
  by_cases h1 : dashIPre a = true
  · by_cases h2 : a = ['-', 'I']
    · exact h2
    · exfalso
      unfold classifyArg at h
      rw [if_pos h1, if_neg h2] at h
      exact absurd h (by decide)
  · exfalso
    unfold classifyArg at h
    rw [if_neg h1] at h
    split_ifs at h

/-- Only the literal `-D` is classified as a bare define flag. -/
theorem classifyArg_eq_defExact (src output a : List Char)
    (h : classifyArg src output a = .defExact) : a = ['-', 'D'] := by
  by_cases h1 : dashIPre a = true
  · exfalso
    unfold classifyArg at h
    rw [if_pos h1] at h
    split_ifs at h
  · by_cases h2 : dashDPre a = true
    · by_cases h3 : a = ['-', 'D']
      · exact h3
      · exfalso
        unfold classifyArg at h
        rw [if_neg h1, if_pos h2, if_neg h3] at h
        exact absurd h (by decide)
    · exfalso
      unfold classifyArg at h
      rw [if_neg h1, if_neg h2] at h
      split_ifs at h

/-- Only the literal `-o` is classified as a double skip. -/
theorem classifyArg_eq_skipTwo (src output a : List Char)
    (h : classifyArg src output a = .skipTwo) : a = ['-', 'o'] := by
  unfold classifyArg at h
  by_cases h1 : dashIPre a = true
  · exfalso
    rw [if_pos h1] at h
    split_ifs at h
  · rw [if_neg h1] at h
    by_cases h2 : dashDPre a = true
    · exfalso
      rw [if_pos h2] at h
      split_ifs at h
    · rw [if_neg h2] at h
      by_cases h3 : a = ['-', 'c'] ∨ a = ['-', 'o'] ∨ a = src ∨ a = output
      · rw [if_pos h3] at h
        by_cases h4 : a = ['-', 'o']
        · exact h4
        · exfalso
          rw [if_neg h4] at h
          exact absurd h (by decide)
      · exfalso
        rw [if_neg h3] at h
        exact absurd h (by decide)

/-- Two extraction runs that skip different source paths agree on an
argument segment containing neither path. -/
theorem extractArgs_congr (src₁ src₂ output : List Char) :
    ∀ (n : ℕ) (l : List (List Char)), l.length ≤ n →
      (∀ a ∈ l, a ≠ src₁ ∧ a ≠ src₂) →
      extractArgs src₁ output l = extractArgs src₂ output l := by
  intro n
  induction n with
  | zero =>
    intro l hl _
    have hnil : l = [] := List.length_eq_zero.mp (Nat.le_zero.mp hl)
    subst hnil
    rfl
  | succ n ih =>
    intro l hl hmem
    cases l with
    | nil => rfl
    | cons a rest =>
      obtain ⟨ha₁, ha₂⟩ := hmem a (List.mem_cons_self a rest)
      have hrest : ∀ b ∈ rest, b ≠ src₁ ∧ b ≠ src₂ :=
        fun b hb => hmem b (List.mem_cons_of_mem a hb)
      have hlen : rest.length ≤ n := by
        simp only [List.length_cons] at hl
        omega
      have hcls := classifyArg_congr src₁ src₂ output a ha₁ ha₂
      cases hc : classifyArg src₂ output a with
      | incExact =>
        have hc₁ : classifyArg src₁ output a = .incExact := hcls.trans hc
        cases rest with
        | nil => simp only [extractArgs, hc₁, hc]
        | cons b rest' =>
          have hrest' : ∀ x ∈ rest', x ≠ src₁ ∧ x ≠ src₂ :=
            fun x hx => hrest x (List.mem_cons_of_mem b hx)
          have hlen' : rest'.length ≤ n := by
            simp only [List.length_cons] at hlen
            omega
          simp only [extractArgs, hc₁, hc, ih rest' hlen' hrest']
      | incInline =>
        have hc₁ : classifyArg src₁ output a = .incInline := hcls.trans hc
        cases rest with
        | nil => simp only [extractArgs, hc₁, hc]
        | cons b rest' =>
          simp only [extractArgs, hc₁, hc, ih (b :: rest') hlen hrest]
      | defExact =>
        have hc₁ : classifyArg src₁ output a = .defExact := hcls.trans hc
        cases rest with
        | nil => simp only [extractArgs, hc₁, hc]
        | cons b rest' =>
          have hrest' : ∀ x ∈ rest', x ≠ src₁ ∧ x ≠ src₂ :=
            fun x hx => hrest x (List.mem_cons_of_mem b hx)
          have hlen' : rest'.length ≤ n := by
            simp only [List.length_cons] at hlen
            omega
          simp only [extractArgs, hc₁, hc, ih rest' hlen' hrest']
      | defInline =>
        have hc₁ : classifyArg src₁ output a = .defInline := hcls.trans hc
        cases rest with
        | nil => simp only [extractArgs, hc₁, hc]
        | cons b rest' =>
          simp only [extractArgs, hc₁, hc, ih (b :: rest') hlen hrest]
      | skipTwo =>
        have hc₁ : classifyArg src₁ output a = .skipTwo := hcls.trans hc
        cases rest with
        | nil => simp only [extractArgs, hc₁, hc]
        | cons b rest' =>
          have hrest' : ∀ x ∈ rest', x ≠ src₁ ∧ x ≠ src₂ :=
            fun x hx => hrest x (List.mem_cons_of_mem b hx)
          have hlen' : rest'.length ≤ n := by
            simp only [List.length_cons] at hlen
            omega
          simp only [extractArgs, hc₁, hc, ih rest' hlen' hrest']
      | skipOne =>
        have hc₁ : classifyArg src₁ output a = .skipOne := hcls.trans hc
        cases rest with
        | nil => simp only [extractArgs, hc₁, hc]
        | cons b rest' =>
          simp only [extractArgs, hc₁, hc, ih (b :: rest') hlen hrest]
      | passThrough =>
        have hc₁ : classifyArg src₁ output a = .passThrough := hcls.trans hc
        cases rest with
        | nil => simp only [extractArgs, hc₁, hc]
        | cons b rest' =>
          simp only [extractArgs, hc₁, hc, ih (b :: rest') hlen hrest]

/-- Swapping the source path when it heads the remaining arguments: both
paths are skipped, and the tail is extracted identically. -/
theorem extractArgs_swap_head (src₁ src₂ output : List Char)
    (hI₁ : dashIPre src₁ = false) (hD₁ : dashDPre src₁ = false) (ho₁ : src₁ ≠ ['-', 'o'])
    (hI₂ : dashIPre src₂ = false) (hD₂ : dashDPre src₂ = false) (ho₂ : src₂ ≠ ['-', 'o'])
    (l₂ : List (List Char)) (hmem₂ : ∀ a ∈ l₂, a ≠ src₁ ∧ a ≠ src₂) :
    extractArgs src₁ output (src₁ :: l₂) = extractArgs src₂ output (src₂ :: l₂) := by
  have hc₁ := classifyArg_source src₁ output hI₁ hD₁ ho₁
  have hc₂ := classifyArg_source src₂ output hI₂ hD₂ ho₂
  have e₁ : extractArgs src₁ output (src₁ :: l₂) = extractArgs src₁ output l₂ := by
    cases l₂ with
    | nil => simp only [extractArgs, hc₁]
    | cons b t => simp only [extractArgs, hc₁]
  have e₂ : extractArgs src₂ output (src₂ :: l₂) = extractArgs src₂ output l₂ := by
    cases l₂ with
    | nil => simp only [extractArgs, hc₂]
    | cons b t => simp only [extractArgs, hc₂]
  rw [e₁, e₂]
  exact extractArgs_congr src₁ src₂ output l₂.length l₂ le_rfl hmem₂

/-- Helper: consing onto a list with a known last element keeps it. -/
theorem getLast?_cons_of_some {α : Type} (a : α) (l : List α) (x : α)
    (h : l.getLast? = some x) : (a :: l).getLast? = some x := by
  cases l with
  | nil => simp at h
  | cons b t =>
    rw [List.getLast?_cons_cons]
    exact h

/-- Swapping the directory part of the source path inside the argument
vector leaves the extraction result unchanged, provided the path occurs
exactly at its one position, neither variant collides with another
argument or is `-I`/`-D`-prefixed or the literal `-o`, and the argument
immediately before the path is not a bare `-I` or `-D` (which would
swallow the path as its value). -/
theorem extractArgs_swap (src₁ src₂ output : List Char)
    (hI₁ : dashIPre src₁ = false) (hD₁ : dashDPre src₁ = false) (ho₁ : src₁ ≠ ['-', 'o'])
    (hI₂ : dashIPre src₂ = false) (hD₂ : dashDPre src₂ = false) (ho₂ : src₂ ≠ ['-', 'o']) :
    ∀ (n : ℕ) (l₁ l₂ : List (List Char)), l₁.length ≤ n →
      (∀ a ∈ l₁, a ≠ src₁ ∧ a ≠ src₂) → (∀ a ∈ l₂, a ≠ src₁ ∧ a ≠ src₂) →
      (∀ x, l₁.getLast? = some x → x ≠ ['-', 'I'] ∧ x ≠ ['-', 'D']) →
      extractArgs src₁ output (l₁ ++ src₁ :: l₂)
        = extractArgs src₂ output (l₁ ++ src₂ :: l₂) := by
  intro n
  induction n with
  | zero =>
    intro l₁ l₂ hl _ hmem₂ _
    have hnil : l₁ = [] := List.length_eq_zero.mp (Nat.le_zero.mp hl)
    subst hnil
    simpa using extractArgs_swap_head src₁ src₂ output hI₁ hD₁ ho₁ hI₂ hD₂ ho₂ l₂ hmem₂
  | succ n ih =>
    intro l₁ l₂ hl hmem₁ hmem₂ hlast
    cases l₁ with
    | nil =>
      simpa using extractArgs_swap_head src₁ src₂ output hI₁ hD₁ ho₁ hI₂ hD₂ ho₂ l₂ hmem₂
    | cons a t =>
      obtain ⟨ha₁, ha₂⟩ := hmem₁ a (List.mem_cons_self a t)
      have hmt : ∀ b ∈ t, b ≠ src₁ ∧ b ≠ src₂ :=
        fun b hb => hmem₁ b (List.mem_cons_of_mem a hb)
      have hlen : t.length ≤ n := by
        simp only [List.length_cons] at hl
        omega
      have hcls := classifyArg_congr src₁ src₂ output a ha₁ ha₂
      simp only [List.cons_append]
      cases hc : classifyArg src₂ output a with
      | incExact =>
        have ha : a = ['-', 'I'] := classifyArg_eq_incExact src₂ output a hc
        have hc₁ : classifyArg src₁ output a = .incExact := hcls.trans hc
        cases t with
        | nil =>
          exact absurd ha (hlast a (by simp)).1
        | cons b t' =>
          have hmt' : ∀ x ∈ t', x ≠ src₁ ∧ x ≠ src₂ :=
            fun x hx => hmt x (List.mem_cons_of_mem b hx)
          have hlen' : t'.length ≤ n := by
            simp only [List.length_cons] at hlen
            omega
          have hlast' : ∀ x, t'.getLast? = some x → x ≠ ['-', 'I'] ∧ x ≠ ['-', 'D'] :=
            fun x hx => hlast x (getLast?_cons_of_some a _ x (getLast?_cons_of_some b _ x hx))
          simp only [List.cons_append, extractArgs, hc₁, hc,
            ih t' l₂ hlen' hmt' hmem₂ hlast']
      | incInline =>
        have hc₁ : classifyArg src₁ output a = .incInline := hcls.trans hc
        cases t with
        | nil =>
          simp only [List.nil_append, extractArgs, hc₁, hc,
            extractArgs_swap_head src₁ src₂ output hI₁ hD₁ ho₁ hI₂ hD₂ ho₂ l₂ hmem₂]
        | cons b t' =>
          have hlast' : ∀ x, (b :: t').getLast? = some x → x ≠ ['-', 'I'] ∧ x ≠ ['-', 'D'] :=
            fun x hx => hlast x (getLast?_cons_of_some a _ x hx)
          have hih : extractArgs src₁ output (b :: (t' ++ src₁ :: l₂))
              = extractArgs src₂ output (b :: (t' ++ src₂ :: l₂)) :=
            ih (b :: t') l₂ hlen hmt hmem₂ hlast'
          simp only [List.cons_append, extractArgs, hc₁, hc, hih]
      | defExact =>
        have ha : a = ['-', 'D'] := classifyArg_eq_defExact src₂ output a hc
        have hc₁ : classifyArg src₁ output a = .defExact := hcls.trans hc
        cases t with
        | nil =>
          exact absurd ha (hlast a (by simp)).2
        | cons b t' =>
          have hmt' : ∀ x ∈ t', x ≠ src₁ ∧ x ≠ src₂ :=
            fun x hx => hmt x (List.mem_cons_of_mem b hx)
          have hlen' : t'.length ≤ n := by
            simp only [List.length_cons] at hlen
            omega
          have hlast' : ∀ x, t'.getLast? = some x → x ≠ ['-', 'I'] ∧ x ≠ ['-', 'D'] :=
            fun x hx => hlast x (getLast?_cons_of_some a _ x (getLast?_cons_of_some b _ x hx))
          simp only [List.cons_append, extractArgs, hc₁, hc,
            ih t' l₂ hlen' hmt' hmem₂ hlast']
      | defInline =>
        have hc₁ : classifyArg src₁ output a = .defInline := hcls.trans hc
        cases t with
        | nil =>
          simp only [List.nil_append, extractArgs, hc₁, hc,
            extractArgs_swap_head src₁ src₂ output hI₁ hD₁ ho₁ hI₂ hD₂ ho₂ l₂ hmem₂]
        | cons b t' =>
          have hlast' : ∀ x, (b :: t').getLast? = some x → x ≠ ['-', 'I'] ∧ x ≠ ['-', 'D'] :=
            fun x hx => hlast x (getLast?_cons_of_some a _ x hx)
          have hih : extractArgs src₁ output (b :: (t' ++ src₁ :: l₂))
              = extractArgs src₂ output (b :: (t' ++ src₂ :: l₂)) :=
            ih (b :: t') l₂ hlen hmt hmem₂ hlast'
          simp only [List.cons_append, extractArgs, hc₁, hc, hih]
      | skipTwo =>
        have hc₁ : classifyArg src₁ output a = .skipTwo := hcls.trans hc
        cases t with
        | nil =>
          simp only [List.nil_append, extractArgs, hc₁, hc]
          exact extractArgs_congr src₁ src₂ output l₂.length l₂ le_rfl hmem₂
        | cons b t' =>
          have hmt' : ∀ x ∈ t', x ≠ src₁ ∧ x ≠ src₂ :=
            fun x hx => hmt x (List.mem_cons_of_mem b hx)
          have hlen' : t'.length ≤ n := by
            simp only [List.length_cons] at hlen
            omega
          have hlast' : ∀ x, t'.getLast? = some x → x ≠ ['-', 'I'] ∧ x ≠ ['-', 'D'] :=
            fun x hx => hlast x (getLast?_cons_of_some a _ x (getLast?_cons_of_some b _ x hx))
          simp only [List.cons_append, extractArgs, hc₁, hc]
          exact ih t' l₂ hlen' hmt' hmem₂ hlast'
      | skipOne =>
        have hc₁ : classifyArg src₁ output a = .skipOne := hcls.trans hc
        cases t with
        | nil =>
          simp only [List.nil_append, extractArgs, hc₁, hc]
          exact extractArgs_swap_head src₁ src₂ output hI₁ hD₁ ho₁ hI₂ hD₂ ho₂ l₂ hmem₂
        | cons b t' =>
          have hlast' : ∀ x, (b :: t').getLast? = some x → x ≠ ['-', 'I'] ∧ x ≠ ['-', 'D'] :=
            fun x hx => hlast x (getLast?_cons_of_some a _ x hx)
          simp only [List.cons_append, extractArgs, hc₁, hc]
          exact ih (b :: t') l₂ hlen hmt hmem₂ hlast'
      | passThrough =>
        have hc₁ : classifyArg src₁ output a = .passThrough := hcls.trans hc
        cases t with
        | nil =>
          simp only [List.nil_append, extractArgs, hc₁, hc,
            extractArgs_swap_head src₁ src₂ output hI₁ hD₁ ho₁ hI₂ hD₂ ho₂ l₂ hmem₂]
        | cons b t' =>
          have hlast' : ∀ x, (b :: t').getLast? = some x → x ≠ ['-', 'I'] ∧ x ≠ ['-', 'D'] :=
            fun x hx => hlast x (getLast?_cons_of_some a _ x hx)
          have hih : extractArgs src₁ output (b :: (t' ++ src₁ :: l₂))
              = extractArgs src₂ output (b :: (t' ++ src₂ :: l₂)) :=
            ih (b :: t') l₂ hlen hmt hmem₂ hlast'
          simp only [List.cons_append, extractArgs, hc₁, hc, hih]

/-- C9: the JOB payload never carries the source directory. `source_name`
is the basename of the source path in both clients, and two invocations
that differ only in the directory part of the source path (same basename,
compiler, job id and remaining arguments) serialize byte-identical JOB
payloads — unconditionally for the coordinator, and for the wrapper
whenever the argument vector contains the source path at its one position
with ordinary shapes (the path not `-I`/`-D`-prefixed and not immediately
preceded by a bare `-I`/`-D`). -/
theorem job_request_basename_privacy
    (jid comp : List Char) (args incs defs : List (List Char))
    (dir₁ dir₂ name : List Char) (pid : ℕ) (output : List Char)
    (l₁ l₂ : List (List Char))
    (hI₁ : dashIPre (dir₁ ++ '/' :: name) = false)
    (hD₁ : dashDPre (dir₁ ++ '/' :: name) = false)
    (hI₂ : dashIPre (dir₂ ++ '/' :: name) = false)
    (hD₂ : dashDPre (dir₂ ++ '/' :: name) = false)
    (hm₁ : ∀ a ∈ l₁, a ≠ dir₁ ++ '/' :: name ∧ a ≠ dir₂ ++ '/' :: name)
    (hm₂ : ∀ a ∈ l₂, a ≠ dir₁ ++ '/' :: name ∧ a ≠ dir₂ ++ '/' :: name)
    (hlast : ∀ x, l₁.getLast? = some x → x ≠ ['-', 'I'] ∧ x ≠ ['-', 'D']) :
    (coordJobRequest jid comp args incs defs (dir₁ ++ '/' :: name)).source_name
      = basename (dir₁ ++ '/' :: name)
    ∧ (wrapperJobRequest pid comp (dir₁ ++ '/' :: name) output
        (l₁ ++ (dir₁ ++ '/' :: name) :: l₂)).source_name = basename (dir₁ ++ '/' :: name)
    ∧ strBytes (jobRequestJson (coordJobRequest jid comp args incs defs (dir₁ ++ '/' :: name)))
      = strBytes (jobRequestJson (coordJobRequest jid comp args incs defs (dir₂ ++ '/' :: name)))
    ∧ strBytes (jobRequestJson (wrapperJobRequest pid comp (dir₁ ++ '/' :: name) output
        (l₁ ++ (dir₁ ++ '/' :: name) :: l₂)))
      = strBytes (jobRequestJson (wrapperJobRequest pid comp (dir₂ ++ '/' :: name) output
        (l₁ ++ (dir₂ ++ '/' :: name) :: l₂))) := by
  have hslash₁ : ('/' : Char) ∈ dir₁ ++ '/' :: name :=
    List.mem_append_right _ (List.mem_cons_self _ _)
  have hslash₂ : ('/' : Char) ∈ dir₂ ++ '/' :: name :=
    List.mem_append_right _ (List.mem_cons_self _ _)
  have ho₁ : dir₁ ++ '/' :: name ≠ ['-', 'o'] := by
    intro h
    rw [h] at hslash₁
    exact absurd hslash₁ (by decide)
  have ho₂ : dir₂ ++ '/' :: name ≠ ['-', 'o'] := by
    intro h
    rw [h] at hslash₂
    exact absurd hslash₂ (by decide)
  have hbase : basename (dir₁ ++ '/' :: name) = basename (dir₂ ++ '/' :: name) := by
    rw [basename_append, basename_append]
  have hswap := extractArgs_swap (dir₁ ++ '/' :: name) (dir₂ ++ '/' :: name) output
    hI₁ hD₁ ho₁ hI₂ hD₂ ho₂ l₁.length l₁ l₂ le_rfl hm₁ hm₂ hlast
  refine ⟨rfl, rfl, ?_, ?_⟩
  · unfold coordJobRequest
    rw [hbase]
  · unfold wrapperJobRequest
    rw [hswap, hbase]

/-- Witness for `job_request_basename_privacy`: `gcc -c a/x.c -o x.o`
versus `gcc -c b/x.c -o x.o` put the same bytes in the JOB payload. -/
theorem job_request_basename_privacy_witness :
    strBytes (jobRequestJson (wrapperJobRequest 3 "gcc".toList
        ("a".toList ++ '/' :: "x.c".toList) "x.o".toList
        (["-c".toList] ++ ("a".toList ++ '/' :: "x.c".toList) :: ["-o".toList, "x.o".toList])))
      = strBytes (jobRequestJson (wrapperJobRequest 3 "gcc".toList
        ("b".toList ++ '/' :: "x.c".toList) "x.o".toList
        (["-c".toList] ++ ("b".toList ++ '/' :: "x.c".toList) :: ["-o".toList, "x.o".toList]))) :=
  (job_request_basename_privacy "j".toList "gcc".toList ["-O2".toList] [] []
    "a".toList "b".toList "x.c".toList 3 "x.o".toList
    ["-c".toList] ["-o".toList, "x.o".toList]
    (by decide) (by decide) (by decide) (by decide) (by decide) (by decide)
    (by
      intro x hx
      simp at hx
      subst hx
      decide)).2.2.2

/-- The three frames `_compile_remote` sends before awaiting a reply
(`ppc_compile_coordinator.py` lines 229-235): JOB with the JSON job
request, SRC with the raw source bytes, and HDR with the literal
two-character empty-object payload (header dependency tracking is
unimplemented). -/
def coordSentFrames (jid comp : List Char) (args incs defs : List (List Char))
    (sourcePath : List Char) (srcData : List Byte) : List (List Char × List Byte) :=
  [("JOB".toList, strBytes (jobRequestJson (coordJobRequest jid comp args incs defs sourcePath))),
   ("SRC".toList, srcData),
   ("HDR".toList, strBytes "\x7b\x7d".toList)]

/-- The three frames `try_remote_compile` sends before awaiting a reply
(`ppc_compile_wrapper.py` lines 346-348). -/
def wrapperSentFrames (pid : ℕ) (comp sourcePath outputPath : List Char)
    (args : List (List Char)) (srcData : List Byte) : List (List Char × List Byte) :=
  [("JOB".toList, strBytes (jobRequestJson (wrapperJobRequest pid comp sourcePath outputPath args))),
   ("SRC".toList, srcData),
   ("HDR".toList, strBytes "\x7b\x7d".toList)]

/-- C10: in every compile exchange from either client, the third and last
request frame carries tag HDR with payload exactly the two bytes 0x7b 0x7d
of an empty JSON object — no sidecar header file is ever transmitted. -/
theorem hdr_payload_empty_spec (jid comp : List Char) (args incs defs : List (List Char))
    (sourcePath : List Char) (srcData : List Byte)
    (pid : ℕ) (outputPath : List Char) (wargs : List (List Char)) :
    (coordSentFrames jid comp args incs defs sourcePath srcData)[2]? =
      some ("HDR".toList, strBytes "\x7b\x7d".toList)
    ∧ (wrapperSentFrames pid comp sourcePath outputPath wargs srcData)[2]? =
      some ("HDR".toList, strBytes "\x7b\x7d".toList)
    ∧ strBytes "\x7b\x7d".toList = [mkByte 123, mkByte 125] :=
  ⟨rfl, rfl, rfl⟩
